import Mathlib

/-
Verification of the navigation and selection engine of the `file-selector`
repository (`src/file_selector/__main__.py`) against its specification.

The Python code is shallowly embedded:

* paths are `List Char` (Python `str` paths; `os.sep` is `'/'`);
* a tree entry is the tuple `(rel_path, depth, is_dir)` appended by
  `build_file_tree.recurse`;
* the filesystem visible to the scan is a finite tree (`FS`): `os.listdir`
  returns the names of a node's children (in unspecified OS order; the code
  sorts them), `os.path.isdir` is the node's constructor;
* Python `set` objects (`selected`, `collapsed`) are `Finset (List Char)`,
  except where iteration order is irrelevant and a `List` is used;
* Python integers that are provably non-negative at each program point are
  `Nat`; `max(0, a - b)` on such integers is `Nat` truncated subtraction.
-/

namespace FileSelector

/-- The path separator `os.sep` (POSIX). -/
def sep : Char := '/'

/-- Coercion from a string literal to the character-list representation of
Python strings used throughout this development. -/
def chars (s : String) : List Char := s.data

/-- Lexicographic comparison of two character lists by code point: the order
used by Python `sorted` on the name strings returned by `os.listdir`. -/
def lexLe : List Char → List Char → Bool
  | [], _ => true
  | _ :: _, [] => false
  | a :: as, b :: bs => if a = b then lexLe as bs else decide (a < b)

/-- Strict version of `lexLe`. -/
def lexLt (a b : List Char) : Bool := lexLe a b && decide (a ≠ b)

/-- One entry of the built tree: the tuple `(rel_path, depth, is_dir)`
appended by `recurse` inside `build_file_tree`. -/
structure Entry where
  path : List Char
  depth : Nat
  isDir : Bool
deriving DecidableEq, Repr

/-- A filesystem node as seen by the scan: a file, or a directory with a
list of children in OS order. -/
inductive FS where
  | file (name : List Char) : FS
  | dir (name : List Char) (children : List FS) : FS

/-- Name of a filesystem node (the `os.listdir` entry string). -/
def FS.name : FS → List Char
  | .file n => n
  | .dir n _ => n

/-- Result of `os.path.isdir` on a node. -/
def FS.isDir : FS → Bool
  | .file _ => false
  | .dir _ _ => true

/-- Stable insertion of a node into a name-sorted list of nodes. -/
def insertSorted (a : FS) : List FS → List FS
  | [] => [a]
  | b :: l => if lexLe a.name b.name then a :: b :: l else b :: insertSorted a l

/-- Stable sort of sibling nodes by name: the effect of
`sorted(os.listdir(path))` on one directory listing. -/
def sortSibs : List FS → List FS
  | [] => []
  | a :: l => insertSorted a (sortSibs l)

mutual

/-- Recursively replace every directory listing in a tree by its sorted
version, so that the scan below can traverse children in order. -/
def sortTree : FS → FS
  | .file n => .file n
  | .dir n cs => .dir n (sortSibs (sortTreeList cs))

/-- Pointwise `sortTree` over a list of siblings. -/
def sortTreeList : List FS → List FS
  | [] => []
  | c :: cs => sortTree c :: sortTreeList cs

end

/-- Sorted-listing view of a whole forest: sort the siblings at this level
and, recursively, at every level below. -/
def sortForest (l : List FS) : List FS := sortSibs (sortTreeList l)

/-- Relative path of an entry named `n` inside the directory whose own
relative path is `pre` (`pre = []` for the scan root): the value of
`os.path.relpath(os.path.join(path, e), root)` along the recursion of
`build_file_tree`. -/
def childPath (pre n : List Char) : List Char :=
  if pre = [] then n else pre ++ sep :: n

mutual

/-- Entries contributed by one node: the node's own `(rel_path, depth,
is_dir)` tuple followed, for a directory, by the recursive scan of its
children (`recurse(full_path, depth + 1)` in the source). -/
def entriesOf (pre : List Char) (d : Nat) : FS → List Entry
  | .file n => [⟨childPath pre n, d, false⟩]
  | .dir n cs => ⟨childPath pre n, d, true⟩ :: entriesList (childPath pre n) (d + 1) cs

/-- Entries contributed by a list of siblings, in list order: the `for e in
entries` loop body of `recurse`. -/
def entriesList (pre : List Char) (d : Nat) : List FS → List Entry
  | [] => []
  | c :: cs => entriesOf pre d c ++ entriesList pre d cs

end

/-- The scan `build_file_tree(root)` of `src/file_selector/__main__.py` for a
root directory whose listing (in OS order) is `fs`: a depth-first walk that
sorts each directory listing, appends `(rel_path, depth, is_dir)` for every
entry and recurses into directories.  Sorting every listing up front
(`sortForest`) and then walking (`entriesList`) performs the same traversal
as sorting inside each `recurse` call. -/
def build_file_tree (fs : List FS) : List Entry := entriesList [] 0 (sortForest fs)

/-- Claim C1 (code evaluation): `build_file_tree` performs no ignore
filtering at all.  Scanning a root that contains a `.git` directory with a
file inside it produces entries both for `.git` and for `.git/config`,
although the repository's own test suite (`tests/test_file_selector.py`)
imports an `IGNORED_DIRS` constant from this module and asserts that `.git`,
`node_modules` and `__pycache__` never appear in the built tree. -/
theorem build_file_tree_includes_ignored_dirs :
    build_file_tree
        [FS.dir (chars ".git") [FS.file (chars "config")],
         FS.file (chars "main.py")] =
      [⟨chars ".git", 0, true⟩, ⟨chars ".git/config", 1, false⟩,
       ⟨chars "main.py", 0, false⟩] := by
  decide

/-- The extension separator `os.extsep`. -/
def extsep : Char := '.'

/-- Index of the last occurrence of `c` in a list, if any: Python
`p.rfind(c)`, with `none` standing for the return value `-1`. -/
def rfindIdx (c : Char) : List Char → Option Nat
  | [] => none
  | a :: as =>
    match rfindIdx c as with
    | some i => some (i + 1)
    | none => if a = c then some 0 else none

/-- The POSIX `os.path.splitext(p)`: split at the last dot provided it lies
after the last path separator and the base name does not consist solely of
leading dots (the `while filenameIndex < dotIndex` loop of CPython's
`genericpath._splitext`, which scans for a character differing from the
extension separator). -/
def splitext (p : List Char) : List Char × List Char :=
  match rfindIdx extsep p, rfindIdx sep p with
  | none, _ => (p, [])
  | some d, sepIdx =>
    let s0 := match sepIdx with | none => 0 | some s => s + 1
    if (match sepIdx with | none => true | some s => decide (s < d)) then
      if ((p.drop s0).take (d - s0)).any (fun a => a != extsep) then
        (p.take d, p.drop d)
      else (p, [])
    else (p, [])

/-- The `match ext` chain of `get_language_for_file`, applied to the already
lowercased extension.  The penultimate arm compares against the dotless
string `"sol"`, exactly as in the source. -/
def languageOfExt (ext : List Char) : List Char :=
  if ext = chars ".c" then chars "c"
  else if ext = chars ".cpp" then chars "cpp"
  else if ext = chars ".cs" then chars "csharp"
  else if ext = chars ".go" then chars "go"
  else if ext = chars ".java" then chars "java"
  else if ext = chars ".js" then chars "javascript"
  else if ext = chars ".kt" then chars "kotlin"
  else if ext = chars ".m" then chars "objective-c"
  else if ext = chars ".php" then chars "php"
  else if ext = chars ".pl" then chars "perl"
  else if ext = chars ".py" then chars "python"
  else if ext = chars ".rs" then chars "rust"
  else if ext = chars ".ts" then chars "typescript"
  else if ext = chars "sol" then chars "solidity"
  else []

/-- The function `get_language_for_file(path)`: take the extension component
of `os.path.splitext`, lowercase it (`str.lower`, modelled per character by
`Char.toLower`, which agrees with Python on ASCII), and run it through the
`match` chain. -/
def get_language_for_file (path : List Char) : List Char :=
  languageOfExt ((splitext path).2.map Char.toLower)

theorem rfindIdx_append (c : Char) (xs ys : List Char) :
    rfindIdx c (xs ++ ys) =
      match rfindIdx c ys with
      | some i => some (xs.length + i)
      | none => rfindIdx c xs := by
  induction xs with
  | nil => cases h : rfindIdx c ys <;> simp [rfindIdx, h]
  | cons a as ih =>
    rw [List.cons_append, rfindIdx, ih]
    cases h : rfindIdx c ys with
    | none => rfl
    | some i =>
      simp only [List.length_cons, Option.some.injEq]
      omega

theorem rfindIdx_drop (c : Char) (p : List Char) (i : Nat)
    (h : rfindIdx c p = some i) : ∃ t, p.drop i = c :: t := by
  induction p generalizing i with
  | nil => simp [rfindIdx] at h
  | cons a as ih =>
    rw [rfindIdx] at h
    cases h2 : rfindIdx c as with
    | some j =>
      rw [h2] at h
      simp only [Option.some.injEq] at h
      obtain ⟨t, ht⟩ := ih j h2
      subst h
      exact ⟨t, by simpa using ht⟩
    | none =>
      rw [h2] at h
      by_cases ha : a = c
      · rw [if_pos ha] at h
        have hi : 0 = i := Option.some.inj h
        subst hi
        exact ⟨as, by simp [ha]⟩
      · rw [if_neg ha] at h
        exact absurd h (by simp)

theorem splitext_snd_of_dot (p : List Char) (d : Nat)
    (h : rfindIdx extsep p = some d) :
    (splitext p).2 = [] ∨ (splitext p).2 = p.drop d := by
  unfold splitext
  rw [h]
  cases hsep : rfindIdx sep p with
  | none =>
    dsimp only
    split_ifs <;> simp
  | some s =>
    dsimp only
    split_ifs <;> simp

theorem splitext_snd_shape (p : List Char) :
    (splitext p).2 = [] ∨ ∃ t, (splitext p).2 = extsep :: t := by
  cases hdot : rfindIdx extsep p with
  | none =>
    left
    unfold splitext
    rw [hdot]
  | some d =>
    rcases splitext_snd_of_dot p d hdot with h | h
    · exact Or.inl h
    · right
      obtain ⟨t, ht⟩ := rfindIdx_drop extsep p d hdot
      exact ⟨t, by rw [h, ht]⟩

theorem languageOfExt_ne_solidity (e : List Char) (h : e ≠ chars "sol") :
    languageOfExt e ≠ chars "solidity" := by
  intro hres
  unfold languageOfExt at hres
  by_cases h1 : e = chars ".c"
  · rw [if_pos h1] at hres; exact absurd hres (by decide)
  rw [if_neg h1] at hres
  by_cases h2 : e = chars ".cpp"
  · rw [if_pos h2] at hres; exact absurd hres (by decide)
  rw [if_neg h2] at hres
  by_cases h3 : e = chars ".cs"
  · rw [if_pos h3] at hres; exact absurd hres (by decide)
  rw [if_neg h3] at hres
  by_cases h4 : e = chars ".go"
  · rw [if_pos h4] at hres; exact absurd hres (by decide)
  rw [if_neg h4] at hres
  by_cases h5 : e = chars ".java"
  · rw [if_pos h5] at hres; exact absurd hres (by decide)
  rw [if_neg h5] at hres
  by_cases h6 : e = chars ".js"
  · rw [if_pos h6] at hres; exact absurd hres (by decide)
  rw [if_neg h6] at hres
  by_cases h7 : e = chars ".kt"
  · rw [if_pos h7] at hres; exact absurd hres (by decide)
  rw [if_neg h7] at hres
  by_cases h8 : e = chars ".m"
  · rw [if_pos h8] at hres; exact absurd hres (by decide)
  rw [if_neg h8] at hres
  by_cases h9 : e = chars ".php"
  · rw [if_pos h9] at hres; exact absurd hres (by decide)
  rw [if_neg h9] at hres
  by_cases h10 : e = chars ".pl"
  · rw [if_pos h10] at hres; exact absurd hres (by decide)
  rw [if_neg h10] at hres
  by_cases h11 : e = chars ".py"
  · rw [if_pos h11] at hres; exact absurd hres (by decide)
  rw [if_neg h11] at hres
  by_cases h12 : e = chars ".rs"
  · rw [if_pos h12] at hres; exact absurd hres (by decide)
  rw [if_neg h12] at hres
  by_cases h13 : e = chars ".ts"
  · rw [if_pos h13] at hres; exact absurd hres (by decide)
  rw [if_neg h13] at hres
  rw [if_neg h] at hres
  exact absurd hres (by decide)

/-- Claim C10: the `"sol"` arm of `get_language_for_file` is unreachable —
`os.path.splitext` returns an extension that is empty or begins with a dot,
so the lowercased extension never equals the dotless pattern `"sol"`; in
particular the function never returns `"solidity"`, and every path ending in
`".sol"` is mapped to the empty string. -/
theorem get_language_for_file_never_solidity :
    (∀ p, get_language_for_file p ≠ chars "solidity") ∧
      (∀ q, get_language_for_file (q ++ chars ".sol") = []) := by
  constructor
  · intro p
    unfold get_language_for_file
    apply languageOfExt_ne_solidity
    rcases splitext_snd_shape p with h | ⟨t, h⟩
    · rw [h]
      decide
    · rw [h]
      have hsol : chars "sol" = 's' :: 'o' :: 'l' :: [] := rfl
      rw [List.map_cons, hsol]
      intro hEq
      injection hEq with h1 _
      exact absurd h1 (by decide)
  · intro q
    unfold get_language_for_file
    have hdot : rfindIdx extsep (q ++ chars ".sol") = some q.length := by
      rw [rfindIdx_append]
      have h1 : rfindIdx extsep (chars ".sol") = some 0 := rfl
      rw [h1]
      simp
    rcases splitext_snd_of_dot (q ++ chars ".sol") q.length hdot with h | h
    · rw [h]
      decide
    · rw [h]
      have h2 : (q ++ chars ".sol").drop q.length = chars ".sol" :=
        List.drop_left q (chars ".sol")
      rw [h2]
      decide

/-- The function `get_visible_indices(tree, collapsed)`: keep the index of
every entry that is not hidden, where an entry with path `p` is hidden when
some collapsed path `c` satisfies `p != c and p.startswith(c + os.sep)`.
The Python `collapsed` set is modelled as a list; only membership matters to
the `for c in collapsed` existence check. -/
def get_visible_indices (tree : List Entry) (collapsed : List (List Char)) : List Nat :=
  (tree.enum.filter
    (fun ie =>
      !(collapsed.any (fun c => (ie.2.path != c) && (c ++ [sep]).isPrefixOf ie.2.path)))).map
    Prod.fst

/-- Claim C5: `get_visible_indices` includes index `i` exactly when entry
`i` exists and no collapsed path `c` satisfies `p ≠ c` and `c ++ sep` being
a prefix of `p` (so a collapsed directory's own index stays included unless
it is itself a strict descendant of another collapsed directory), and the
returned indices are strictly increasing, preserving tree order. -/
theorem get_visible_indices_spec (tree : List Entry) (collapsed : List (List Char)) :
    (∀ i : Nat, i ∈ get_visible_indices tree collapsed ↔
      ∃ e, tree[i]? = some e ∧
        ∀ c ∈ collapsed, ¬(e.path ≠ c ∧ (c ++ [sep]) <+: e.path)) ∧
      List.Pairwise (· < ·) (get_visible_indices tree collapsed) := by
  constructor
  · intro i
    unfold get_visible_indices
    rw [List.mem_map]
    constructor
    · rintro ⟨⟨j, e⟩, hmem, rfl⟩
      obtain ⟨henum, hpred⟩ := List.mem_filter.mp hmem
      refine ⟨e, List.mem_enum_iff_getElem?.mp henum, ?_⟩
      rintro c hc ⟨hne, hpref⟩
      have hfalse :
          collapsed.any (fun c => (e.path != c) && (c ++ [sep]).isPrefixOf e.path) = false := by
        simpa using hpred
      have htrue : ((e.path != c) && (c ++ [sep]).isPrefixOf e.path) = true := by
        rw [Bool.and_eq_true]
        exact ⟨bne_iff_ne.mpr hne, List.isPrefixOf_iff_prefix.mpr hpref⟩
      rw [List.any_eq_false] at hfalse
      exact hfalse c hc htrue
    · rintro ⟨e, hget, hforall⟩
      refine ⟨(i, e), ?_, rfl⟩
      rw [List.mem_filter]
      refine ⟨List.mem_enum_iff_getElem?.mpr hget, ?_⟩
      rw [Bool.not_eq_true']
      rw [List.any_eq_false]
      intro c hc
      by_cases h1 : e.path = c
      · simp [h1]
      · have h2 : ¬ (c ++ [sep]) <+: e.path := fun hp => hforall c hc ⟨h1, hp⟩
        have h3 : (c ++ [sep]).isPrefixOf e.path = false := by
          rw [← Bool.not_eq_true]
          intro hb
          exact h2 (List.isPrefixOf_iff_prefix.mp hb)
        simp [h3]
  · have hsub : (get_visible_indices tree collapsed).Sublist (List.range tree.length) := by
      unfold get_visible_indices
      have h1 := (List.filter_sublist (l := tree.enum)
        (p := fun ie =>
          !(collapsed.any
            (fun c => (ie.2.path != c) && (c ++ [sep]).isPrefixOf ie.2.path)))).map Prod.fst
      rwa [List.enum_map_fst] at h1
    exact (List.pairwise_lt_range tree.length).sublist hsub

/-- The scroll-offset computation of the event loop (`middle = max_lines //
2`, `start_line = max(0, current_index - middle)`, then clamp when
`start_line + max_lines` would run past the end of the visible list).  All
quantities are non-negative at this program point, and Python
`max(0, a - b)` on naturals is truncated subtraction. -/
def start_line (currentIndex visibleCount maxLines : Nat) : Nat :=
  let middle := maxLines / 2
  let s := currentIndex - middle
  if s + maxLines > visibleCount then visibleCount - maxLines else s

/-- Claim C7: the scroll offset equals
`min (max 0 (cursor - height / 2)) (max 0 (count - height))`, and when the
viewport fits (`height ≤ count`) the offset is bounded by
`count - height` and the cursor lies inside the window. -/
theorem start_line_spec (ci vc mh : Nat) (hmh : 1 ≤ mh) (hci : ci < vc) :
    start_line ci vc mh = min (ci - mh / 2) (vc - mh) ∧
      (mh ≤ vc →
        start_line ci vc mh ≤ vc - mh ∧
          start_line ci vc mh ≤ ci ∧ ci ≤ start_line ci vc mh + mh - 1) := by
  unfold start_line
  dsimp only
  split_ifs with h
  · exact ⟨by omega, fun hvc => by omega⟩
  · exact ⟨by omega, fun hvc => by omega⟩

/-- Witness for claim C7 at `cursor = 5`, `count = 10`, `height = 4`. -/
theorem start_line_spec_witness :
    (1 ≤ 4 ∧ 5 < 10) ∧
      (start_line 5 10 4 = min (5 - 4 / 2) (10 - 4) ∧
        (4 ≤ 10 →
          start_line 5 10 4 ≤ 10 - 4 ∧
            start_line 5 10 4 ≤ 5 ∧ 5 ≤ start_line 5 10 4 + 4 - 1)) :=
  ⟨by decide, start_line_spec 5 10 4 (by decide) (by decide)⟩

/-- Value of Python `int(number_buffer)` on a string of digits. -/
def bufferVal (buf : List Char) : Nat :=
  buf.foldl (fun acc c => acc * 10 + (c.toNat - Char.toNat '0')) 0

/-- The `key == ord("g")` branch of the event loop.  With a pending count
the cursor jumps to `min(max(0, int(buffer) - 1), len(visible) - 1)` and
the buffer is cleared; otherwise the loop blocks briefly for a second key:
a second `g` jumps to the top, a digit seeds the numeric buffer, and any
other key (or the timeout value `-1`, modelled as `none`) changes nothing.
Index arithmetic is over `Int` exactly as in Python.  Returns the new
`(current_index, number_buffer)` pair. -/
def handle_g_key (currentIndex : Int) (numberBuffer : List Char) (visibleLen : Nat)
    (nextKey : Option Char) : Int × List Char :=
  if numberBuffer ≠ [] then
    (min (max 0 ((bufferVal numberBuffer : Int) - 1)) ((visibleLen : Int) - 1), [])
  else
    match nextKey with
    | some k =>
      if k = 'g' then (0, numberBuffer)
      else if '0' ≤ k ∧ k ≤ '9' then (currentIndex, [k])
      else (currentIndex, numberBuffer)
    | none => (currentIndex, numberBuffer)

/-- Claim C8: with a non-empty visible list, `g` with a pending count jumps
to the count minus one clamped into `[0, len(visible) - 1]` and clears the
buffer; `g` then `g` with an empty buffer moves the cursor to index `0`
regardless of its prior value; and `g` followed by a digit seeds the
numeric buffer with that digit. -/
theorem handle_g_key_spec (ci : Int) (buf : List Char) (n : Nat) (k : Option Char)
    (hn : 0 < n) :
    (buf ≠ [] →
      handle_g_key ci buf n k =
          (min (max 0 ((bufferVal buf : Int) - 1)) ((n : Int) - 1), []) ∧
        0 ≤ (handle_g_key ci buf n k).1 ∧
          (handle_g_key ci buf n k).1 ≤ (n : Int) - 1) ∧
      (buf = [] → k = some 'g' → handle_g_key ci buf n k = (0, [])) ∧
      (buf = [] → ∀ c, k = some c → '0' ≤ c → c ≤ '9' →
        handle_g_key ci buf n k = (ci, [c])) := by
  refine ⟨fun hbuf => ?_, fun hbuf hk => ?_, fun hbuf c hk h0 h9 => ?_⟩
  · unfold handle_g_key
    rw [if_pos hbuf]
    have hn1 : (1 : Int) ≤ (n : Int) := by exact_mod_cast hn
    refine ⟨rfl, ?_, ?_⟩
    · simp
      omega
    · simp
  · subst hk
    subst hbuf
    unfold handle_g_key
    simp
  · subst hk
    subst hbuf
    unfold handle_g_key
    have hcg : c ≠ 'g' := by
      intro hEq
      subst hEq
      exact absurd h9 (by decide)
    simp [hcg, h0, h9]

/-- Witness for claim C8 with `current_index = 7`, buffer `"12"`, three
visible lines and a timed-out second key. -/
theorem handle_g_key_spec_witness :
    (0 < 3) ∧
      ((chars "12" ≠ [] →
        handle_g_key 7 (chars "12") 3 none =
            (min (max 0 ((bufferVal (chars "12") : Int) - 1)) ((3 : Int) - 1), []) ∧
          0 ≤ (handle_g_key 7 (chars "12") 3 none).1 ∧
            (handle_g_key 7 (chars "12") 3 none).1 ≤ (3 : Int) - 1) ∧
        (chars "12" = [] → none = some 'g' →
          handle_g_key 7 (chars "12") 3 none = (0, [])) ∧
        (chars "12" = [] → ∀ c, none = some c → '0' ≤ c → c ≤ '9' →
          handle_g_key 7 (chars "12") 3 none = (7, [c]))) :=
  ⟨by decide, handle_g_key_spec 7 (chars "12") 3 none (by decide)⟩

/-- The guard at the top of every loop iteration: if the computed visible
index list is empty, clear the collapsed set and recompute before anything
else uses it.  Returns the (possibly cleared) collapsed set together with
the visible list used by the rest of the iteration. -/
def visible_with_reset (tree : List Entry) (collapsed : List (List Char)) :
    List (List Char) × List Nat :=
  let v := get_visible_indices tree collapsed
  if v = [] then ([], get_visible_indices tree []) else (collapsed, v)

theorem get_visible_indices_nil_collapsed (tree : List Entry) :
    get_visible_indices tree [] = List.range tree.length := by
  unfold get_visible_indices
  rw [show (fun (ie : Nat × Entry) =>
        !([] : List (List Char)).any
          (fun c => (ie.2.path != c) && (c ++ [sep]).isPrefixOf ie.2.path)) =
      fun _ => true from rfl]
  rw [List.filter_true]
  exact List.enum_map_fst tree

/-- Claim C9: whenever the computed visible list is empty the loop clears
the whole collapsed set and recomputes, so for a non-empty tree the visible
list used by the rest of the iteration is never empty. -/
theorem visible_with_reset_spec (tree : List Entry) (collapsed : List (List Char))
    (ht : tree ≠ []) :
    (visible_with_reset tree collapsed).2 ≠ [] ∧
      (get_visible_indices tree collapsed = [] →
        visible_with_reset tree collapsed = ([], get_visible_indices tree [])) ∧
      (get_visible_indices tree collapsed ≠ [] →
        visible_with_reset tree collapsed =
          (collapsed, get_visible_indices tree collapsed)) := by
  have hfull : get_visible_indices tree [] ≠ [] := by
    rw [get_visible_indices_nil_collapsed]
    intro hr
    have := congrArg List.length hr
    simp at this
    exact ht this
  unfold visible_with_reset
  dsimp only
  split_ifs with h
  · exact ⟨hfull, fun _ => rfl, fun hne => absurd h hne⟩
  · exact ⟨h, fun hEq => absurd hEq h, fun _ => rfl⟩

/-- Witness for claim C9: a one-entry tree whose only path is collapsed
away by a stale collapse set. -/
theorem visible_with_reset_spec_witness :
    ([(⟨chars "d/x", 0, false⟩ : Entry)] ≠ []) ∧
      ((visible_with_reset [⟨chars "d/x", 0, false⟩] [chars "d"]).2 ≠ [] ∧
        (get_visible_indices [⟨chars "d/x", 0, false⟩] [chars "d"] = [] →
          visible_with_reset [⟨chars "d/x", 0, false⟩] [chars "d"] =
            ([], get_visible_indices [⟨chars "d/x", 0, false⟩] [])) ∧
        (get_visible_indices [⟨chars "d/x", 0, false⟩] [chars "d"] ≠ [] →
          visible_with_reset [⟨chars "d/x", 0, false⟩] [chars "d"] =
            ([chars "d"], get_visible_indices [⟨chars "d/x", 0, false⟩] [chars "d"]))) :=
  ⟨by decide, visible_with_reset_spec [⟨chars "d/x", 0, false⟩] [chars "d"] (by decide)⟩

/-- Python `os.path.join(root, p)` for a relative path `p` under a root
without a trailing separator. -/
def pjoin (root p : List Char) : List Char := root ++ sep :: p

/-- The function `toggle_selection(selected, tree, index, root)`.  On a file
entry, membership of its path is flipped.  On a directory entry the code
collects every tree path `p` whose joined form equals the directory's
joined path `base_path` or starts with `base_path + os.sep` — note that
this includes the directory itself and all descendant directories, not only
files — and bulk-removes the collected set when it is already a subset of
the selection, otherwise bulk-adds it.  The caller always passes an index
inside the tree (`visible_indices[current_index]`); an out-of-range index,
which would raise in Python, is modelled as a no-op. -/
def toggle_selection (selected : Finset (List Char)) (tree : List Entry) (index : Nat)
    (root : List Char) : Finset (List Char) :=
  match tree[index]? with
  | none => selected
  | some e =>
    if e.isDir then
      let base := pjoin root e.path
      let all_descendants :=
        (tree.filter (fun t =>
          (pjoin root t.path == base) || (base ++ [sep]).isPrefixOf (pjoin root t.path))).map
          (fun t => t.path)
      if all_descendants.toFinset ⊆ selected then selected \ all_descendants.toFinset
      else selected ∪ all_descendants.toFinset
    else
      if e.path ∈ selected then selected.erase e.path else insert e.path selected

/-- A small tree used as a counterexample input: directory `d` containing a
subdirectory `d/s` and a file `d/f`. -/
def exTree : List Entry :=
  [⟨chars "d", 0, true⟩, ⟨chars "d/s", 1, true⟩, ⟨chars "d/f", 1, false⟩]

/-- Claim C2 is false on the code: toggling directory `d` of `exTree` from
the empty selection does not produce the set of file descendants
`{d/f}`; the directory path `d` itself (and the subdirectory `d/s`)
are inserted as well. -/
theorem toggle_selection_dir_counterexample :
    toggle_selection ∅ exTree 0 (chars "r") ≠ {chars "d/f"} ∧
      chars "d" ∈ toggle_selection ∅ exTree 0 (chars "r") ∧
      chars "d/s" ∈ toggle_selection ∅ exTree 0 (chars "r") := by
  decide

/-- Claim C2 (amended): on a directory entry the toggled set `D` consists
of the directory's own path together with every tree path below it (file or
directory); `D` always contains the directory itself, so it is never empty;
if `D` is a subset of the selection exactly `D` is removed, otherwise
exactly `D` is added. -/
theorem toggle_selection_dir_amended (selected : Finset (List Char)) (tree : List Entry)
    (index : Nat) (root : List Char) (e : Entry)
    (hget : tree[index]? = some e) (hdir : e.isDir = true) :
    ∃ D : Finset (List Char),
      (∀ x, x ∈ D ↔ ∃ t ∈ tree, t.path = x ∧ (x = e.path ∨ (e.path ++ [sep]) <+: x)) ∧
        e.path ∈ D ∧
        (D ⊆ selected → toggle_selection selected tree index root = selected \ D) ∧
        (¬D ⊆ selected → toggle_selection selected tree index root = selected ∪ D) := by
  have hpred : ∀ t : Entry,
      ((pjoin root t.path == pjoin root e.path) ||
        (pjoin root e.path ++ [sep]).isPrefixOf (pjoin root t.path)) = true ↔
      (t.path = e.path ∨ (e.path ++ [sep]) <+: t.path) := by
    intro t
    rw [Bool.or_eq_true, beq_iff_eq, List.isPrefixOf_iff_prefix]
    constructor
    · rintro (h | h)
      · exact Or.inl (by
          have h2 := List.append_cancel_left h
          exact List.cons_injective.eq_iff.mp h2)
      · right
        have h2 : root ++ sep :: (e.path ++ [sep]) <+: root ++ sep :: t.path := by
          simpa [pjoin, List.append_assoc] using h
        have h3 := (List.prefix_append_right_inj root).mp h2
        exact (List.cons_prefix_cons.mp h3).2
    · rintro (h | h)
      · exact Or.inl (by rw [h])
      · right
        show pjoin root e.path ++ [sep] <+: pjoin root t.path
        have h2 : sep :: (e.path ++ [sep]) <+: sep :: t.path :=
          List.cons_prefix_cons.mpr ⟨rfl, h⟩
        have h3 := (List.prefix_append_right_inj root).mpr h2
        simpa [pjoin, List.append_assoc] using h3
  refine ⟨((tree.filter (fun t =>
      (pjoin root t.path == pjoin root e.path) ||
        (pjoin root e.path ++ [sep]).isPrefixOf (pjoin root t.path))).map
      (fun t => t.path)).toFinset, ?_, ?_, ?_, ?_⟩
  · intro x
    rw [List.mem_toFinset, List.mem_map]
    constructor
    · rintro ⟨t, hmem, rfl⟩
      obtain ⟨htree, hp⟩ := List.mem_filter.mp hmem
      exact ⟨t, htree, rfl, (hpred t).mp hp⟩
    · rintro ⟨t, htree, rfl, hcond⟩
      exact ⟨t, List.mem_filter.mpr ⟨htree, (hpred t).mpr hcond⟩, rfl⟩
  · rw [List.mem_toFinset, List.mem_map]
    have hmem : e ∈ tree := by
      obtain ⟨hlt, hEq⟩ := List.getElem?_eq_some.mp hget
      exact hEq ▸ List.getElem_mem hlt
    exact ⟨e, List.mem_filter.mpr ⟨hmem, (hpred e).mpr (Or.inl rfl)⟩, rfl⟩
  · intro hsub
    unfold toggle_selection
    rw [hget]
    dsimp only
    rw [if_pos hdir, if_pos hsub]
  · intro hsub
    unfold toggle_selection
    rw [hget]
    dsimp only
    rw [if_pos hdir, if_neg hsub]

/-- Witness for the amended claim C2 at directory `d` of `exTree`. -/
theorem toggle_selection_dir_amended_witness :
    (exTree[0]? = some ⟨chars "d", 0, true⟩ ∧ (true : Bool) = true) ∧
      (∃ D : Finset (List Char),
        (∀ x, x ∈ D ↔ ∃ t ∈ exTree, t.path = x ∧
          (x = chars "d" ∨ (chars "d" ++ [sep]) <+: x)) ∧
          chars "d" ∈ D ∧
          (D ⊆ {chars "d/f"} → toggle_selection {chars "d/f"} exTree 0 (chars "r") =
            {chars "d/f"} \ D) ∧
          (¬D ⊆ {chars "d/f"} → toggle_selection {chars "d/f"} exTree 0 (chars "r") =
            {chars "d/f"} ∪ D)) :=
  ⟨⟨by decide, rfl⟩,
    toggle_selection_dir_amended {chars "d/f"} exTree 0 (chars "r")
      ⟨chars "d", 0, true⟩ (by decide) rfl⟩

/-- A sequence of `toggle_selection` calls starting from a given selection:
the fold of the event loop's Enter handling over a list of target indices. -/
def toggle_sequence (tree : List Entry) (root : List Char) (start : Finset (List Char))
    (idxs : List Nat) : Finset (List Char) :=
  idxs.foldl (fun s i => toggle_selection s tree i root) start

/-- Claim C3 is false on the code: after the single toggle sequence `[0]`
on `exTree` starting from the empty selection, the path of the
directory-type entry `d` is a member of the selection. -/
theorem selection_no_directory_counterexample :
    chars "d" ∈ toggle_sequence exTree (chars "r") ∅ [0] ∧
      (∃ t ∈ exTree, t.path = chars "d" ∧ t.isDir = true) := by
  decide

theorem toggle_selection_subset_paths (selected : Finset (List Char)) (tree : List Entry)
    (index : Nat) (root : List Char)
    (hsel : selected ⊆ (tree.map (fun e => e.path)).toFinset) :
    toggle_selection selected tree index root ⊆ (tree.map (fun e => e.path)).toFinset := by
  unfold toggle_selection
  cases hget : tree[index]? with
  | none => exact hsel
  | some e =>
    dsimp only
    have hmem : e ∈ tree := by
      obtain ⟨hlt, hEq⟩ := List.getElem?_eq_some.mp hget
      exact hEq ▸ List.getElem_mem hlt
    have hpath : e.path ∈ (tree.map (fun e => e.path)).toFinset := by
      rw [List.mem_toFinset, List.mem_map]
      exact ⟨e, hmem, rfl⟩
    split_ifs with hdir hsub hfile
    · exact Finset.Subset.trans Finset.sdiff_subset hsel
    · refine Finset.union_subset hsel ?_
      intro x hx
      rw [List.mem_toFinset, List.mem_map] at hx
      obtain ⟨t, hmemf, rfl⟩ := hx
      rw [List.mem_toFinset, List.mem_map]
      exact ⟨t, (List.mem_filter.mp hmemf).1, rfl⟩
    · exact Finset.Subset.trans (Finset.erase_subset _ _) hsel
    · exact Finset.insert_subset hpath hsel

/-- Claim C3 (amended): starting from the empty selection, any sequence of
`toggle_selection` calls leaves the selection a subset of the set of paths
occurring in the tree — file paths or directory paths, since toggling a
directory inserts the directory's own path and those of all its descendant
directories as well. -/
theorem toggle_sequence_subset_paths (tree : List Entry) (root : List Char)
    (idxs : List Nat) :
    toggle_sequence tree root ∅ idxs ⊆ (tree.map (fun e => e.path)).toFinset := by
  have hgen : ∀ (idxs : List Nat) (start : Finset (List Char)),
      start ⊆ (tree.map (fun e => e.path)).toFinset →
      toggle_sequence tree root start idxs ⊆ (tree.map (fun e => e.path)).toFinset := by
    intro idxs
    induction idxs with
    | nil => intro start h; exact h
    | cons i rest ih =>
      intro start h
      exact ih _ (toggle_selection_subset_paths start tree i root h)
  exact hgen idxs ∅ (Finset.empty_subset _)

/-- A filesystem node for the error-handling analysis of the scan: as `FS`,
but a directory additionally records whether `os.listdir` succeeds on it
(`readable`) or raises (for example `PermissionError`). -/
inductive FSR where
  | file (name : List Char) : FSR
  | dir (name : List Char) (readable : Bool) (children : List FSR) : FSR

/-- Name of a node. -/
def FSR.name : FSR → List Char
  | .file n => n
  | .dir n _ _ => n

/-- Stable insertion for the readability-annotated model. -/
def insertSortedR (a : FSR) : List FSR → List FSR
  | [] => [a]
  | b :: l => if lexLe a.name b.name then a :: b :: l else b :: insertSortedR a l

/-- Stable sort of siblings for the readability-annotated model. -/
def sortSibsR : List FSR → List FSR
  | [] => []
  | a :: l => insertSortedR a (sortSibsR l)

mutual

/-- Recursive sorting of every directory listing, as `sortTree`. -/
def sortTreeR : FSR → FSR
  | .file n => .file n
  | .dir n r cs => .dir n r (sortSibsR (sortTreeListR cs))

/-- Pointwise `sortTreeR`. -/
def sortTreeListR : List FSR → List FSR
  | [] => []
  | c :: cs => sortTreeR c :: sortTreeListR cs

end

/-- Sorted-listing view of a readability-annotated forest. -/
def sortForestR (l : List FSR) : List FSR := sortSibsR (sortTreeListR l)

mutual

/-- Entries contributed by one node when `os.listdir` may fail: reaching an
unreadable directory raises, and since `recurse` contains no exception
handler the error propagates out of the whole call. -/
def entriesOfR (pre : List Char) (d : Nat) : FSR → Except Unit (List Entry)
  | .file n => .ok [⟨childPath pre n, d, false⟩]
  | .dir n r cs =>
    if r then
      match entriesListR (childPath pre n) (d + 1) cs with
      | .ok inner => .ok (⟨childPath pre n, d, true⟩ :: inner)
      | .error e => .error e
    else .error ()

/-- Entries contributed by a sibling list when `os.listdir` may fail. -/
def entriesListR (pre : List Char) (d : Nat) : List FSR → Except Unit (List Entry)
  | [] => .ok []
  | c :: cs =>
    match entriesOfR pre d c with
    | .ok xs =>
      match entriesListR pre d cs with
      | .ok ys => .ok (xs ++ ys)
      | .error e => .error e
    | .error e => .error e

end

/-- The scan `build_file_tree(root)` over a filesystem in which directory
listings can fail: the result is either the full entry list or the
propagated exception. -/
def build_file_tree_exc (fs : List FSR) : Except Unit (List Entry) :=
  entriesListR [] 0 (sortForestR fs)

mutual

/-- Readability of every directory of one node's subtree. -/
def allReadable : FSR → Bool
  | .file _ => true
  | .dir _ r cs => r && allReadableList cs

/-- Readability of every directory below a sibling list. -/
def allReadableList : List FSR → Bool
  | [] => true
  | c :: cs => allReadable c && allReadableList cs

end

/-- Claim C4 is false on the code: an unreadable directory in the root does
not get skipped — the whole build aborts with the propagated error. -/
theorem build_file_tree_exc_counterexample :
    build_file_tree_exc
        [FSR.dir (chars "locked") false [FSR.file (chars "x")],
         FSR.file (chars "a")] = .error () := rfl

theorem mem_insertSortedR (a x : FSR) (l : List FSR) :
    x ∈ insertSortedR a l ↔ x = a ∨ x ∈ l := by
  induction l with
  | nil => simp [insertSortedR]
  | cons b bs ih =>
    unfold insertSortedR
    split_ifs with h
    · simp
    · simp [ih]
      tauto

theorem mem_sortSibsR (x : FSR) (l : List FSR) : x ∈ sortSibsR l ↔ x ∈ l := by
  induction l with
  | nil => simp [sortSibsR]
  | cons b bs ih => simp [sortSibsR, mem_insertSortedR, ih]

theorem allReadableList_iff (l : List FSR) :
    allReadableList l = true ↔ ∀ c ∈ l, allReadable c = true := by
  induction l with
  | nil => simp [allReadableList]
  | cons c cs ih => simp [allReadableList, ih]

theorem allReadableList_sortSibsR (l : List FSR) :
    allReadableList (sortSibsR l) = allReadableList l := by
  rw [Bool.eq_iff_iff, allReadableList_iff, allReadableList_iff]
  constructor
  · intro h c hc
    exact h c ((mem_sortSibsR c l).mpr hc)
  · intro h c hc
    exact h c ((mem_sortSibsR c l).mp hc)

theorem allReadable_sortTreeR (e : FSR) : allReadable (sortTreeR e) = allReadable e := by
  refine FSR.rec (motive_1 := fun e => allReadable (sortTreeR e) = allReadable e)
    (motive_2 := fun l => allReadableList (sortTreeListR l) = allReadableList l)
    ?_ ?_ ?_ ?_ e
  · intro n
    rfl
  · intro n r cs ih
    simp only [sortTreeR, allReadable, allReadableList_sortSibsR]
    rw [ih]
  · rfl
  · intro c cs ih1 ih2
    simp only [sortTreeListR, allReadableList]
    rw [ih1, ih2]

theorem allReadableList_sortTreeListR (l : List FSR) :
    allReadableList (sortTreeListR l) = allReadableList l := by
  induction l with
  | nil => rfl
  | cons c cs ih =>
    simp only [sortTreeListR, allReadableList]
    rw [allReadable_sortTreeR, ih]

theorem allReadableList_sortForestR (l : List FSR) :
    allReadableList (sortForestR l) = allReadableList l := by
  unfold sortForestR
  rw [allReadableList_sortSibsR, allReadableList_sortTreeListR]

theorem entriesOfR_isOk (e : FSR) :
    ∀ pre d, (∃ v, entriesOfR pre d e = .ok v) ↔ allReadable e = true := by
  refine FSR.rec
    (motive_1 := fun e => ∀ pre d, (∃ v, entriesOfR pre d e = .ok v) ↔ allReadable e = true)
    (motive_2 := fun l => ∀ pre d, (∃ v, entriesListR pre d l = .ok v) ↔
      allReadableList l = true)
    ?_ ?_ ?_ ?_ e
  · intro n pre d
    simp [entriesOfR, allReadable]
  · intro n r cs ih pre d
    simp only [entriesOfR, allReadable]
    by_cases hr : r = true
    · rw [if_pos hr, hr, Bool.true_and]
      cases hrec : entriesListR (childPath pre n) (d + 1) cs with
      | ok v =>
        have h1 := (ih (childPath pre n) (d + 1)).mp ⟨v, hrec⟩
        simp [h1]
      | error err =>
        have h2 : ¬ allReadableList cs = true := by
          intro hx
          obtain ⟨v, hv⟩ := (ih (childPath pre n) (d + 1)).mpr hx
          rw [hrec] at hv
          exact absurd hv (by simp)
        simp [h2]
    · rw [if_neg hr]
      rw [Bool.not_eq_true] at hr
      simp [hr]
  · intro pre d
    simp [entriesListR, allReadableList]
  · intro c cs ih1 ih2 pre d
    unfold entriesListR allReadableList
    cases h1 : entriesOfR pre d c with
    | ok xs =>
      have hc : allReadable c = true := (ih1 pre d).mp ⟨xs, h1⟩
      cases h2 : entriesListR pre d cs with
      | ok ys =>
        have hcs : allReadableList cs = true := (ih2 pre d).mp ⟨ys, h2⟩
        simp [hc, hcs]
      | error err =>
        have hcs : ¬ allReadableList cs = true := by
          intro hx
          obtain ⟨v, hv⟩ := (ih2 pre d).mpr hx
          rw [h2] at hv
          exact absurd hv (by simp)
        simp [hc, hcs]
    | error err =>
      have hc : ¬ allReadable c = true := by
        intro hx
        obtain ⟨v, hv⟩ := (ih1 pre d).mpr hx
        rw [h1] at hv
        exact absurd hv (by simp)
      simp [hc]

theorem entriesListR_isOk (l : List FSR) :
    ∀ pre d, (∃ v, entriesListR pre d l = .ok v) ↔ allReadableList l = true := by
  induction l with
  | nil => intro pre d; simp [entriesListR, allReadableList]
  | cons c cs ih =>
    intro pre d
    unfold entriesListR allReadableList
    cases h1 : entriesOfR pre d c with
    | ok xs =>
      have hc : allReadable c = true := (entriesOfR_isOk c pre d).mp ⟨xs, h1⟩
      cases h2 : entriesListR pre d cs with
      | ok ys =>
        have hcs : allReadableList cs = true := (ih pre d).mp ⟨ys, h2⟩
        simp [hc, hcs]
      | error err =>
        have hcs : ¬ allReadableList cs = true := by
          intro hx
          obtain ⟨v, hv⟩ := (ih pre d).mpr hx
          rw [h2] at hv
          exact absurd hv (by simp)
        simp [hc, hcs]
    | error err =>
      have hc : ¬ allReadable c = true := by
        intro hx
        obtain ⟨v, hv⟩ := (entriesOfR_isOk c pre d).mpr hx
        rw [h1] at hv
        exact absurd hv (by simp)
      simp [hc]

/-- Claim C4 (amended): the scan has no per-entry error recovery — it
succeeds exactly when every directory in the filesystem is readable, and a
single unreadable entry aborts the whole tree build with the propagated
error. -/
theorem build_file_tree_exc_ok_iff (fs : List FSR) :
    (∃ es, build_file_tree_exc fs = .ok es) ↔ allReadableList fs = true := by
  unfold build_file_tree_exc
  rw [entriesListR_isOk, allReadableList_sortForestR]

theorem lexLe_refl (a : List Char) : lexLe a a = true := by
  induction a with
  | nil => rfl
  | cons x xs ih => simp [lexLe, ih]

theorem lexLe_trans (a b c : List Char) (h1 : lexLe a b = true) (h2 : lexLe b c = true) :
    lexLe a c = true := by
  induction a generalizing b c with
  | nil => rfl
  | cons x xs ih =>
    cases b with
    | nil => simp [lexLe] at h1
    | cons y ys =>
      cases c with
      | nil => simp [lexLe] at h2
      | cons z zs =>
        rw [lexLe] at h1 h2 ⊢
        by_cases hxy : x = y
        · subst hxy
          rw [if_pos rfl] at h1
          by_cases hyz : x = z
          · subst hyz
            rw [if_pos rfl] at h2 ⊢
            exact ih ys zs h1 h2
          · rw [if_neg hyz] at h2 ⊢
            exact h2
        · rw [if_neg hxy] at h1
          by_cases hyz : y = z
          · subst hyz
            rw [if_neg hxy]
            exact h1
          · rw [if_neg hyz] at h2
            by_cases hxz : x = z
            · subst hxz
              exact absurd (lt_trans (of_decide_eq_true h1) (of_decide_eq_true h2))
                (lt_irrefl x)
            · rw [if_neg hxz]
              exact decide_eq_true (lt_trans (of_decide_eq_true h1) (of_decide_eq_true h2))

theorem lexLe_total (a b : List Char) : lexLe a b = true ∨ lexLe b a = true := by
  induction a generalizing b with
  | nil => exact Or.inl rfl
  | cons x xs ih =>
    cases b with
    | nil => exact Or.inr rfl
    | cons y ys =>
      rw [lexLe, lexLe]
      by_cases hxy : x = y
      · subst hxy
        rw [if_pos rfl, if_pos rfl]
        exact ih ys
      · rw [if_neg hxy, if_neg (fun h => hxy h.symm)]
        rcases lt_or_gt_of_ne hxy with h | h
        · exact Or.inl (decide_eq_true h)
        · exact Or.inr (decide_eq_true h)

theorem lexLe_antisymm (a b : List Char) (h1 : lexLe a b = true) (h2 : lexLe b a = true) :
    a = b := by
  induction a generalizing b with
  | nil =>
    cases b with
    | nil => rfl
    | cons y ys => simp [lexLe] at h2
  | cons x xs ih =>
    cases b with
    | nil => simp [lexLe] at h1
    | cons y ys =>
      rw [lexLe] at h1 h2
      by_cases hxy : x = y
      · subst hxy
        rw [if_pos rfl] at h1 h2
        rw [ih ys h1 h2]
      · rw [if_neg hxy] at h1
        rw [if_neg (fun h => hxy h.symm)] at h2
        exact absurd (lt_trans (of_decide_eq_true h1) (of_decide_eq_true h2))
          (lt_irrefl x)

theorem lexLe_append_same (q a b : List Char) :
    lexLe (q ++ a) (q ++ b) = lexLe a b := by
  induction q with
  | nil => rfl
  | cons x xs ih => simp [lexLe, ih]

/-- Strict-descendant test on relative paths: `p` lies strictly below `q`
when `q ++ sep` is a prefix of `p` — the string test used by both
`toggle_selection` and `get_visible_indices`. -/
def descends (q p : List Char) : Bool := (q ++ [sep]).isPrefixOf p

theorem descends_length (q p : List Char) (h : descends q p = true) :
    q.length < p.length := by
  unfold descends at h
  have h2 := (List.isPrefixOf_iff_prefix.mp h).length_le
  simp at h2
  omega

theorem descends_self_false (q : List Char) : descends q q = false := by
  rw [← Bool.not_eq_true]
  intro h
  exact absurd (descends_length q q h) (lt_irrefl _)

theorem descends_append (q t : List Char) : descends q (q ++ sep :: t) = true := by
  unfold descends
  rw [List.isPrefixOf_iff_prefix]
  exact ⟨t, by simp⟩

/-- A usable form of `validName`: the name is non-empty and free of the
path separator, as every real directory-entry name is. -/
def validName (n : List Char) : Bool := !n.isEmpty && !n.contains sep

theorem validName_ne_nil (n : List Char) (h : validName n = true) : n ≠ [] := by
  unfold validName at h
  rw [Bool.and_eq_true] at h
  intro hn
  subst hn
  simp at h

theorem validName_not_mem_sep (n : List Char) (h : validName n = true) : sep ∉ n := by
  unfold validName at h
  rw [Bool.and_eq_true] at h
  have h2 := h.2
  simp at h2
  exact h2

/-- Separation of sibling names: two separator-free segments followed by
empty-or-separator-headed tails can only form equal strings if the segments
and tails agree. -/
theorem segment_cancel (a b u v : List Char)
    (ha : sep ∉ a) (hb : sep ∉ b)
    (hu : u = [] ∨ ∃ u', u = sep :: u') (hv : v = [] ∨ ∃ v', v = sep :: v')
    (h : a ++ u = b ++ v) : a = b ∧ u = v := by
  induction a generalizing b with
  | nil =>
    cases b with
    | nil => exact ⟨rfl, by simpa using h⟩
    | cons c bs =>
      simp only [List.nil_append, List.cons_append] at h
      rcases hu with hu | ⟨u', hu⟩
      · subst hu
        simp at h
      · subst hu
        have hc : c = sep := by
          have := congrArg (fun l => List.head? l) h
          simpa using this.symm
        subst hc
        exact absurd (List.mem_cons_self _ _) hb
  | cons c as ih =>
    cases b with
    | nil =>
      simp only [List.cons_append, List.nil_append] at h
      rcases hv with hv | ⟨v', hv⟩
      · subst hv
        simp at h
      · subst hv
        have hc : c = sep := by
          have := congrArg (fun l => List.head? l) h
          simpa using this
        subst hc
        exact absurd (List.mem_cons_self _ _) ha
    | cons c₂ bs =>
      simp only [List.cons_append, List.cons.injEq] at h
      obtain ⟨hc, htail⟩ := h
      subst hc
      have ha' : sep ∉ as := fun hm => ha (List.mem_cons_of_mem _ hm)
      have hb' : sep ∉ bs := fun hm => hb (List.mem_cons_of_mem _ hm)
      obtain ⟨h1, h2⟩ := ih bs ha' hb' htail
      exact ⟨by rw [h1], h2⟩

theorem childPath_append_sep (pre n y : List Char) :
    childPath pre n ++ y = if pre = [] then n ++ y else pre ++ sep :: (n ++ y) := by
  unfold childPath
  split_ifs with h
  · rfl
  · simp

/-- Separation of sibling subtrees: a path below (or at) child `n` never
descends from a path below (or at) a differently named child `m` of the
same directory. -/
theorem descends_childPath_ne (pre n m t u : List Char)
    (hn : validName n = true) (hm : validName m = true) (hne : n ≠ m)
    (ht : t = [] ∨ ∃ t', t = sep :: t') (hu : u = [] ∨ ∃ u', u = sep :: u') :
    descends (childPath pre n ++ t) (childPath pre m ++ u) = false := by
  rw [← Bool.not_eq_true]
  intro hdesc
  unfold descends at hdesc
  obtain ⟨w, hw⟩ := List.isPrefixOf_iff_prefix.mp hdesc
  have hw2 : childPath pre n ++ (t ++ sep :: w) = childPath pre m ++ u := by
    rw [← hw]
    simp
  have hthead : ∃ r, t ++ sep :: w = sep :: r := by
    rcases ht with h | ⟨t', h⟩
    · subst h
      exact ⟨w, rfl⟩
    · subst h
      exact ⟨t' ++ sep :: w, rfl⟩
  obtain ⟨r, hr⟩ := hthead
  rw [childPath_append_sep, childPath_append_sep] at hw2
  by_cases hpre : pre = []
  · rw [if_pos hpre, if_pos hpre] at hw2
    have := segment_cancel n m (t ++ sep :: w) u
      (validName_not_mem_sep n hn) (validName_not_mem_sep m hm)
      (Or.inr ⟨r, hr⟩) hu hw2
    exact hne this.1
  · rw [if_neg hpre, if_neg hpre] at hw2
    have h3 := List.append_cancel_left hw2
    have h4 := List.cons_injective.eq_iff.mp h3
    have := segment_cancel n m (t ++ sep :: w) u
      (validName_not_mem_sep n hn) (validName_not_mem_sep m hm)
      (Or.inr ⟨r, hr⟩) hu h4
    exact hne this.1

mutual

/-- Well-formedness of a filesystem node: every name in the subtree is a
valid directory-entry name and sibling names never repeat, as guaranteed by
a real filesystem. -/
def wfFS : FS → Bool
  | .file n => validName n
  | .dir n cs => validName n && decide ((cs.map FS.name).Nodup) && wfList cs

/-- Well-formedness of a sibling list (without the top-level nodup, which
`wfForest` adds). -/
def wfList : List FS → Bool
  | [] => true
  | c :: cs => wfFS c && wfList cs

end

/-- Well-formedness of the scanned root listing. -/
def wfForest (l : List FS) : Bool := decide ((l.map FS.name).Nodup) && wfList l

mutual

/-- Every directory listing of the subtree is sorted by name: the shape of
the trees produced by `sortTree`. -/
def sortedFS : FS → Bool
  | .file _ => true
  | .dir _ cs =>
    decide (List.Pairwise (fun a b => lexLe a.name b.name = true) cs) && sortedList cs

/-- Pointwise `sortedFS` over siblings. -/
def sortedList : List FS → Bool
  | [] => true
  | c :: cs => sortedFS c && sortedList cs

end

theorem wfList_iff (l : List FS) : wfList l = true ↔ ∀ c ∈ l, wfFS c = true := by
  induction l with
  | nil => simp [wfList]
  | cons c cs ih => simp [wfList, ih]

theorem sortedList_iff (l : List FS) : sortedList l = true ↔ ∀ c ∈ l, sortedFS c = true := by
  induction l with
  | nil => simp [sortedList]
  | cons c cs ih => simp [sortedList, ih]

theorem insertSorted_perm (a : FS) (l : List FS) :
    List.Perm (insertSorted a l) (a :: l) := by
  induction l with
  | nil => rfl
  | cons b bs ih =>
    unfold insertSorted
    split_ifs with h
    · rfl
    · exact (List.Perm.cons b ih).trans (List.Perm.swap a b bs)

theorem sortSibs_perm (l : List FS) : List.Perm (sortSibs l) l := by
  induction l with
  | nil => rfl
  | cons a as ih =>
    unfold sortSibs
    exact (insertSorted_perm a (sortSibs as)).trans (List.Perm.cons a ih)

theorem mem_sortSibs (x : FS) (l : List FS) : x ∈ sortSibs l ↔ x ∈ l :=
  (sortSibs_perm l).mem_iff

theorem mem_insertSorted (a x : FS) (l : List FS) :
    x ∈ insertSorted a l ↔ x = a ∨ x ∈ l := by
  rw [(insertSorted_perm a l).mem_iff]
  simp

theorem pairwise_insertSorted (a : FS) (l : List FS)
    (h : List.Pairwise (fun x y => lexLe x.name y.name = true) l) :
    List.Pairwise (fun x y => lexLe x.name y.name = true) (insertSorted a l) := by
  induction l with
  | nil => simp [insertSorted]
  | cons b bs ih =>
    unfold insertSorted
    rw [List.pairwise_cons] at h
    obtain ⟨hb, hbs⟩ := h
    split_ifs with hle
    · rw [List.pairwise_cons]
      refine ⟨?_, List.pairwise_cons.mpr ⟨hb, hbs⟩⟩
      intro y hy
      rcases List.mem_cons.mp hy with hEq | hmem
      · subst hEq
        exact hle
      · exact lexLe_trans _ _ _ hle (hb y hmem)
    · rw [List.pairwise_cons]
      constructor
      · intro y hy
        rcases (mem_insertSorted a y bs).mp hy with hEq | hmem
        · subst hEq
          rcases lexLe_total y.name b.name with h1 | h1
          · exact absurd h1 hle
          · exact h1
        · exact hb y hmem
      · exact ih hbs

theorem sortSibs_sorted (l : List FS) :
    List.Pairwise (fun x y => lexLe x.name y.name = true) (sortSibs l) := by
  induction l with
  | nil => simp [sortSibs]
  | cons a as ih =>
    unfold sortSibs
    exact pairwise_insertSorted a (sortSibs as) ih

theorem name_sortTree (e : FS) : (sortTree e).name = e.name := by
  cases e <;> rfl

theorem mem_sortTreeList (x : FS) (l : List FS) :
    x ∈ sortTreeList l ↔ ∃ c ∈ l, x = sortTree c := by
  induction l with
  | nil => simp [sortTreeList]
  | cons c cs ih =>
    simp only [sortTreeList, List.mem_cons, ih]
    constructor
    · rintro (h | ⟨c', hc', rfl⟩)
      · exact ⟨c, Or.inl rfl, h⟩
      · exact ⟨c', Or.inr hc', rfl⟩
    · rintro ⟨c', hc' | hc', rfl⟩
      · exact Or.inl (by rw [hc'])
      · exact Or.inr ⟨c', hc', rfl⟩

theorem map_name_sortTreeList (l : List FS) :
    (sortTreeList l).map FS.name = l.map FS.name := by
  induction l with
  | nil => rfl
  | cons c cs ih =>
    simp only [sortTreeList, List.map_cons, ih, name_sortTree]

theorem nodup_map_name_sortSibs (l : List FS)
    (h : (l.map FS.name).Nodup) : ((sortSibs l).map FS.name).Nodup :=
  (((sortSibs_perm l).map FS.name).nodup_iff).mpr h

theorem wfFS_sortTree (e : FS) (h : wfFS e = true) : wfFS (sortTree e) = true := by
  refine FS.rec (motive_1 := fun e => wfFS e = true → wfFS (sortTree e) = true)
    (motive_2 := fun l => wfList l = true → wfList (sortTreeList l) = true)
    ?_ ?_ ?_ ?_ e h
  · intro n h
    exact h
  · intro n cs ih h
    simp only [wfFS, Bool.and_eq_true, decide_eq_true_eq] at h
    obtain ⟨⟨hn, hnd⟩, hcs⟩ := h
    simp only [sortTree, wfFS, Bool.and_eq_true, decide_eq_true_eq]
    refine ⟨⟨hn, ?_⟩, ?_⟩
    · apply nodup_map_name_sortSibs
      rw [map_name_sortTreeList]
      exact hnd
    · rw [wfList_iff]
      intro c hc
      rw [mem_sortSibs] at hc
      exact (wfList_iff _).mp (ih hcs) c hc
  · intro h
    exact h
  · intro c cs ih1 ih2 h
    simp only [wfList, Bool.and_eq_true] at h ⊢
    exact ⟨ih1 h.1, ih2 h.2⟩

theorem wfList_sortTreeList (l : List FS) (h : wfList l = true) :
    wfList (sortTreeList l) = true := by
  induction l with
  | nil => rfl
  | cons c cs ih =>
    simp only [wfList, Bool.and_eq_true] at h ⊢
    exact ⟨wfFS_sortTree c h.1, ih h.2⟩

theorem sortedFS_sortTree (e : FS) : sortedFS (sortTree e) = true := by
  refine FS.rec (motive_1 := fun e => sortedFS (sortTree e) = true)
    (motive_2 := fun l => sortedList (sortTreeList l) = true)
    ?_ ?_ ?_ ?_ e
  · intro n
    rfl
  · intro n cs ih
    simp only [sortTree, sortedFS, Bool.and_eq_true, decide_eq_true_eq]
    refine ⟨sortSibs_sorted _, ?_⟩
    rw [sortedList_iff]
    intro c hc
    rw [mem_sortSibs] at hc
    rw [sortedList_iff] at ih
    exact ih c hc
  · rfl
  · intro c cs ih1 ih2
    simp only [sortTreeList, sortedList, Bool.and_eq_true]
    exact ⟨ih1, ih2⟩

theorem sortedList_sortTreeList (l : List FS) : sortedList (sortTreeList l) = true := by
  induction l with
  | nil => rfl
  | cons c cs ih =>
    simp only [sortTreeList, sortedList, Bool.and_eq_true]
    exact ⟨sortedFS_sortTree c, ih⟩

/-- Collected facts about the sorted forest the scan actually walks. -/
theorem sortForest_good (fs : List FS) (h : wfForest fs = true) :
    wfList (sortForest fs) = true ∧
      ((sortForest fs).map FS.name).Nodup ∧
      List.Pairwise (fun x y => lexLe x.name y.name = true) (sortForest fs) ∧
      sortedList (sortForest fs) = true := by
  unfold wfForest at h
  rw [Bool.and_eq_true, decide_eq_true_eq] at h
  obtain ⟨hnd, hwf⟩ := h
  unfold sortForest
  refine ⟨?_, ?_, sortSibs_sorted _, ?_⟩
  · rw [wfList_iff]
    intro c hc
    rw [mem_sortSibs] at hc
    exact (wfList_iff _).mp (wfList_sortTreeList fs hwf) c hc
  · apply nodup_map_name_sortSibs
    rw [map_name_sortTreeList]
    exact hnd
  · rw [sortedList_iff]
    intro c hc
    rw [mem_sortSibs] at hc
    exact (sortedList_iff _).mp (sortedList_sortTreeList fs) c hc

theorem childPath_ne_nil (pre n : List Char) (hn : validName n = true) :
    childPath pre n ≠ [] := by
  unfold childPath
  split_ifs with h
  · exact validName_ne_nil n hn
  · simp

theorem childPath_of_ne_nil (p' m : List Char) (hp : p' ≠ []) :
    childPath p' m = p' ++ sep :: m := by
  unfold childPath
  rw [if_neg hp]

theorem entriesOf_shape (e : FS) :
    ∀ pre d x, wfFS e = true → x ∈ entriesOf pre d e →
      (x.path = childPath pre e.name ∧ x.depth = d) ∨
      (∃ t, x.path = childPath pre e.name ++ sep :: t ∧ d < x.depth) := by
  refine FS.rec
    (motive_1 := fun e => ∀ pre d x, wfFS e = true → x ∈ entriesOf pre d e →
      (x.path = childPath pre e.name ∧ x.depth = d) ∨
      (∃ t, x.path = childPath pre e.name ++ sep :: t ∧ d < x.depth))
    (motive_2 := fun l => ∀ pre d x, wfList l = true → x ∈ entriesList pre d l →
      ∃ c ∈ l, (x.path = childPath pre c.name ∧ x.depth = d) ∨
        (∃ t, x.path = childPath pre c.name ++ sep :: t ∧ d < x.depth))
    ?_ ?_ ?_ ?_ e
  · intro n pre d x _ hx
    simp only [entriesOf, List.mem_singleton] at hx
    subst hx
    exact Or.inl ⟨rfl, rfl⟩
  · intro n cs ih pre d x hwf hx
    simp only [wfFS, Bool.and_eq_true, decide_eq_true_eq] at hwf
    obtain ⟨⟨hn, _⟩, hcs⟩ := hwf
    simp only [entriesOf, List.mem_cons] at hx
    rcases hx with hx | hx
    · subst hx
      exact Or.inl ⟨rfl, rfl⟩
    · right
      simp only [FS.name]
      obtain ⟨c, _, hshape⟩ := ih (childPath pre n) (d + 1) x hcs hx
      have hp : childPath pre n ≠ [] := childPath_ne_nil pre n hn
      rcases hshape with ⟨hpath, hdepth⟩ | ⟨t, hpath, hdepth⟩
      · refine ⟨c.name, ?_, by omega⟩
        rw [hpath, childPath_of_ne_nil _ _ hp]
      · refine ⟨c.name ++ sep :: t, ?_, by omega⟩
        rw [hpath, childPath_of_ne_nil _ _ hp]
        simp
  · intro pre d x _ hx
    simp [entriesList] at hx
  · intro c cs ih1 ih2 pre d x hwf hx
    simp only [wfList, Bool.and_eq_true] at hwf
    simp only [entriesList, List.mem_append] at hx
    rcases hx with hx | hx
    · exact ⟨c, List.mem_cons_self c cs, ih1 pre d x hwf.1 hx⟩
    · obtain ⟨c', hc', hshape⟩ := ih2 pre d x hwf.2 hx
      exact ⟨c', List.mem_cons_of_mem c hc', hshape⟩

theorem entriesList_shape (l : List FS) :
    ∀ pre d x, wfList l = true → x ∈ entriesList pre d l →
      ∃ c ∈ l, (x.path = childPath pre c.name ∧ x.depth = d) ∨
        (∃ t, x.path = childPath pre c.name ++ sep :: t ∧ d < x.depth) := by
  induction l with
  | nil =>
    intro pre d x _ hx
    simp [entriesList] at hx
  | cons c cs ih =>
    intro pre d x hwf hx
    simp only [wfList, Bool.and_eq_true] at hwf
    simp only [entriesList, List.mem_append] at hx
    rcases hx with hx | hx
    · exact ⟨c, List.mem_cons_self c cs, entriesOf_shape c pre d x hwf.1 hx⟩
    · obtain ⟨c', hc', hshape⟩ := ih pre d x hwf.2 hx
      exact ⟨c', List.mem_cons_of_mem c hc', hshape⟩

/-- Every entry produced below a directory whose relative path is `p'` lies
strictly below `p'` (its path extends `p' ++ sep`) and is at least as deep
as the starting depth. -/
theorem entriesList_below (cs : List FS) (p' : List Char) (d : Nat)
    (hp : p' ≠ []) (hwf : wfList cs = true) :
    ∀ x ∈ entriesList p' d cs,
      (∃ r, x.path = p' ++ sep :: r) ∧ d ≤ x.depth := by
  intro x hx
  obtain ⟨c, _, hshape⟩ := entriesList_shape cs p' d x hwf hx
  rcases hshape with ⟨hpath, hdepth⟩ | ⟨t, hpath, hdepth⟩
  · refine ⟨⟨c.name, ?_⟩, by omega⟩
    rw [hpath, childPath_of_ne_nil _ _ hp]
  · refine ⟨⟨c.name ++ sep :: t, ?_⟩, by omega⟩
    rw [hpath, childPath_of_ne_nil _ _ hp]
    simp

theorem lexLt_childPath (pre n₁ n₂ : List Char) (hle : lexLe n₁ n₂ = true)
    (hne : n₁ ≠ n₂) : lexLt (childPath pre n₁) (childPath pre n₂) = true := by
  unfold lexLt
  rw [Bool.and_eq_true]
  constructor
  · unfold childPath
    split_ifs with h
    · exact hle
    · have hrw : ∀ m : List Char, pre ++ sep :: m = (pre ++ [sep]) ++ m := by
        intro m
        simp
      rw [hrw n₁, hrw n₂, lexLe_append_same]
      exact hle
  · rw [decide_eq_true_eq]
    unfold childPath
    split_ifs with h
    · exact hne
    · intro hEq
      exact hne (List.cons_injective.eq_iff.mp (List.append_cancel_left hEq))

/-- Among the entries produced from a name-sorted sibling list, those at
the top depth `d` (the direct children) appear in strictly increasing
lexicographic path order. -/
theorem entriesList_children_pairwise (es : List FS) :
    ∀ pre d, wfList es = true → (es.map FS.name).Nodup →
    List.Pairwise (fun a b => lexLe a.name b.name = true) es →
    List.Pairwise
      (fun x y => x.depth = d → y.depth = d → lexLt x.path y.path = true)
      (entriesList pre d es) := by
  induction es with
  | nil =>
    intro pre d _ _ _
    simp [entriesList]
  | cons c cs ih =>
    intro pre d hwf hnd hsorted
    simp only [wfList, Bool.and_eq_true] at hwf
    obtain ⟨hwfc, hwfcs⟩ := hwf
    rw [List.map_cons, List.nodup_cons] at hnd
    obtain ⟨hnotin, hndcs⟩ := hnd
    rw [List.pairwise_cons] at hsorted
    obtain ⟨hrel, hscs⟩ := hsorted
    simp only [entriesList]
    rw [List.pairwise_append]
    refine ⟨?_, ih pre d hwfcs hndcs hscs, ?_⟩
    · cases c with
      | file n =>
        simp [entriesOf]
      | dir n cs' =>
        simp only [entriesOf]
        rw [List.pairwise_cons]
        have hwfc' := hwfc
        simp only [wfFS, Bool.and_eq_true, decide_eq_true_eq] at hwfc'
        obtain ⟨⟨hn, _⟩, hwcs'⟩ := hwfc'
        have hbelow := entriesList_below cs' (childPath pre n) (d + 1)
          (childPath_ne_nil pre n hn) hwcs'
        constructor
        · intro y hy _ h2
          have := (hbelow y hy).2
          omega
        · apply List.pairwise_of_forall_mem_list
          intro a _ b hb h1 h2
          have := (hbelow b hb).2
          omega
    · intro a ha b hb h1 h2
      rcases entriesOf_shape c pre d a hwfc ha with ⟨hpa, _⟩ | ⟨t, hpa, hda⟩
      · rcases entriesList_shape cs pre d b hwfcs hb with ⟨c₂, hc₂, hsh⟩
        rcases hsh with ⟨hpb, _⟩ | ⟨u, hpb, hdb⟩
        · rw [hpa, hpb]
          apply lexLt_childPath
          · exact hrel c₂ hc₂
          · intro hEq
            exact hnotin (hEq ▸ List.mem_map_of_mem FS.name hc₂)
        · omega
      · omega

theorem wfFS_validName (c : FS) (h : wfFS c = true) : validName c.name = true := by
  cases c with
  | file n => exact h
  | dir n cs =>
    simp only [wfFS, Bool.and_eq_true] at h
    exact h.1.1

theorem entriesOf_path_form (c : FS) (pre : List Char) (d : Nat) (x : Entry)
    (hwf : wfFS c = true) (hx : x ∈ entriesOf pre d c) :
    ∃ u, x.path = childPath pre c.name ++ u ∧ (u = [] ∨ ∃ u', u = sep :: u') := by
  rcases entriesOf_shape c pre d x hwf hx with ⟨hp, _⟩ | ⟨t, hp, _⟩
  · exact ⟨[], by simp [hp], Or.inl rfl⟩
  · exact ⟨sep :: t, by simp [hp], Or.inr ⟨t, rfl⟩⟩

theorem entriesList_path_form (cs : List FS) (pre : List Char) (d : Nat) (x : Entry)
    (hwf : wfList cs = true) (hx : x ∈ entriesList pre d cs) :
    ∃ c₂ ∈ cs, ∃ u, x.path = childPath pre c₂.name ++ u ∧
      (u = [] ∨ ∃ u', u = sep :: u') := by
  obtain ⟨c₂, hc₂, hsh⟩ := entriesList_shape cs pre d x hwf hx
  rcases hsh with ⟨hp, _⟩ | ⟨t, hp, _⟩
  · exact ⟨c₂, hc₂, [], by simp [hp], Or.inl rfl⟩
  · exact ⟨c₂, hc₂, sep :: t, by simp [hp], Or.inr ⟨t, rfl⟩⟩

/-- The central decomposition: in the entry list built from a well-formed,
name-sorted sibling forest, every directory entry is immediately followed
by the contiguous block of exactly its strict descendants (each strictly
deeper), everything before it and after the block being non-descendants,
and the block's top-level (depth one below the directory) entries are in
strictly increasing path order. -/
theorem entriesList_split :
    ∀ (N : Nat) (es : List FS), (∀ c ∈ es, sizeOf c < N) →
      wfList es = true → (es.map FS.name).Nodup →
      List.Pairwise (fun a b => lexLe a.name b.name = true) es →
      sortedList es = true →
      ∀ (pre : List Char) (d i : Nat) (p : List Char) (dd : Nat),
        (entriesList pre d es)[i]? = some ⟨p, dd, true⟩ →
        ∃ A B C,
          entriesList pre d es = A ++ ⟨p, dd, true⟩ :: (B ++ C) ∧
            A.length = i ∧
            (∀ x ∈ B, descends p x.path = true ∧ dd < x.depth) ∧
            (∀ x ∈ A, descends p x.path = false) ∧
            (∀ x ∈ C, descends p x.path = false) ∧
            List.Pairwise
              (fun x y => x.depth = dd + 1 → y.depth = dd + 1 →
                lexLt x.path y.path = true) B := by
  intro N
  induction N with
  | zero =>
    intro es hsz
    cases es with
    | nil =>
      intro _ _ _ _ pre d i p dd hget
      simp [entriesList] at hget
    | cons c cs =>
      exact absurd (hsz c (List.mem_cons_self c cs)) (by omega)
  | succ N ihN =>
    intro es
    induction es with
    | nil =>
      intro _ _ _ _ _ pre d i p dd hget
      simp [entriesList] at hget
    | cons c cs ihes =>
      intro hsz hwf hnd hsort hsl pre d i p dd hget
      simp only [wfList, Bool.and_eq_true] at hwf
      obtain ⟨hwfc, hwfcs⟩ := hwf
      rw [List.map_cons, List.nodup_cons] at hnd
      obtain ⟨hnotin, hndcs⟩ := hnd
      rw [List.pairwise_cons] at hsort
      obtain ⟨hrel, hscs⟩ := hsort
      simp only [sortedList, Bool.and_eq_true] at hsl
      obtain ⟨hsfc, hslcs⟩ := hsl
      simp only [entriesList] at hget ⊢
      by_cases hi : i < (entriesOf pre d c).length
      · rw [List.getElem?_append, if_pos hi] at hget
        cases c with
        | file n =>
          cases i with
          | zero =>
            simp only [entriesOf, List.getElem?_cons_zero, Option.some.injEq] at hget
            have hbad : (false : Bool) = true := congrArg Entry.isDir hget
            simp at hbad
          | succ j =>
            simp [entriesOf] at hget
        | dir n cs' =>
          have hwfc2 := hwfc
          simp only [wfFS, Bool.and_eq_true, decide_eq_true_eq] at hwfc2
          obtain ⟨⟨hn, hnd'⟩, hwcs'⟩ := hwfc2
          have hsfc2 := hsfc
          simp only [sortedFS, Bool.and_eq_true, decide_eq_true_eq] at hsfc2
          obtain ⟨hpw', hsl'⟩ := hsfc2
          have hpne : childPath pre n ≠ [] := childPath_ne_nil pre n hn
          have hbelow := entriesList_below cs' (childPath pre n) (d + 1) hpne hwcs'
          cases i with
          | zero =>
            simp only [entriesOf, List.getElem?_cons_zero, Option.some.injEq] at hget
            have hp : childPath pre n = p := congrArg Entry.path hget
            have hdd : d = dd := congrArg Entry.depth hget
            subst hp
            subst hdd
            refine ⟨[], entriesList (childPath pre n) (d + 1) cs', entriesList pre d cs,
              ?_, rfl, ?_, by simp, ?_, ?_⟩
            · simp [entriesOf]
            · intro x hx
              obtain ⟨⟨r, hr⟩, hdep⟩ := hbelow x hx
              refine ⟨?_, by omega⟩
              rw [hr]
              exact descends_append _ _
            · intro x hx
              obtain ⟨c₂, hc₂, u, hu, hukind⟩ := entriesList_path_form cs pre d x hwfcs hx
              have hvm : validName c₂.name = true :=
                wfFS_validName c₂ ((wfList_iff cs).mp hwfcs c₂ hc₂)
              have hne : n ≠ c₂.name := by
                intro hEq
                apply hnotin
                rw [hEq]
                exact List.mem_map.mpr ⟨c₂, hc₂, rfl⟩
              have hres := descends_childPath_ne pre n c₂.name [] u hn hvm hne
                (Or.inl rfl) hukind
              rw [hu]
              simpa using hres
            · exact entriesList_children_pairwise cs' (childPath pre n) (d + 1)
                hwcs' hnd' hpw'
          | succ j =>
            have hget1 : (entriesList (childPath pre n) (d + 1) cs')[j]? =
                some ⟨p, dd, true⟩ := by
              simpa [entriesOf] using hget
            have hszc : ∀ c' ∈ cs', sizeOf c' < N := by
              intro c' hc'
              have h1 := List.sizeOf_lt_of_mem hc'
              have h2 := hsz (FS.dir n cs') (List.mem_cons_self _ _)
              have h3 : sizeOf cs' < sizeOf (FS.dir n cs') := by
                simp [FS.dir.sizeOf_spec]
              omega
            obtain ⟨A', B', C', hsplit, hlen, hB, hA, hC, hpwB⟩ :=
              ihN cs' hszc hwcs' hnd' hpw' hsl' (childPath pre n) (d + 1) j p dd hget1
            have hpmem : (⟨p, dd, true⟩ : Entry) ∈
                entriesList (childPath pre n) (d + 1) cs' := by
              rw [hsplit]
              simp
            obtain ⟨⟨r, hpr⟩, hddge⟩ := hbelow _ hpmem
            have hpr' : p = childPath pre n ++ sep :: r := hpr
            refine ⟨⟨childPath pre n, d, true⟩ :: A', B',
              C' ++ entriesList pre d cs, ?_, ?_, hB, ?_, ?_, hpwB⟩
            · simp only [entriesOf, hsplit]
              simp [List.append_assoc]
            · simp [hlen]
            · intro x hx
              rcases List.mem_cons.mp hx with hx | hx
              · subst hx
                rw [← Bool.not_eq_true]
                intro hcon
                have hlen2 := descends_length _ _ hcon
                rw [hpr'] at hlen2
                simp at hlen2
              · exact hA x hx
            · intro x hx
              rcases List.mem_append.mp hx with hx | hx
              · exact hC x hx
              · obtain ⟨c₂, hc₂, u, hu, hukind⟩ :=
                  entriesList_path_form cs pre d x hwfcs hx
                have hvm : validName c₂.name = true :=
                  wfFS_validName c₂ ((wfList_iff cs).mp hwfcs c₂ hc₂)
                have hne : n ≠ c₂.name := by
                  intro hEq
                  apply hnotin
                  rw [hEq]
                  exact List.mem_map.mpr ⟨c₂, hc₂, rfl⟩
                have hres := descends_childPath_ne pre n c₂.name (sep :: r) u hn hvm hne
                  (Or.inr ⟨r, rfl⟩) hukind
                rw [hu, hpr']
                exact hres
      · push_neg at hi
        rw [List.getElem?_append_right hi] at hget
        have hsz' : ∀ c' ∈ cs, sizeOf c' < N + 1 := fun c' hc' =>
          hsz c' (List.mem_cons_of_mem c hc')
        obtain ⟨A₂, B₂, C₂, hsplit, hlen, hB, hA, hC, hpwB⟩ :=
          ihes hsz' hwfcs hndcs hscs hslcs pre d (i - (entriesOf pre d c).length) p dd hget
        have hpmem : (⟨p, dd, true⟩ : Entry) ∈ entriesList pre d cs := by
          rw [hsplit]
          simp
        obtain ⟨c₂, hc₂, t, hpt, htkind⟩ :=
          entriesList_path_form cs pre d _ hwfcs hpmem
        have hpt' : p = childPath pre c₂.name ++ t := hpt
        have hvm2 : validName c₂.name = true :=
          wfFS_validName c₂ ((wfList_iff cs).mp hwfcs c₂ hc₂)
        have hvmc : validName c.name = true := wfFS_validName c hwfc
        have hnec : c₂.name ≠ c.name := by
          intro hEq
          apply hnotin
          rw [← hEq]
          exact List.mem_map_of_mem FS.name hc₂
        refine ⟨entriesOf pre d c ++ A₂, B₂, C₂, ?_, ?_, hB, ?_, hC, hpwB⟩
        · rw [hsplit]
          simp [List.append_assoc]
        · rw [List.length_append, hlen]
          omega
        · intro x hx
          rcases List.mem_append.mp hx with hx | hx
          · obtain ⟨u, hu, hukind⟩ := entriesOf_path_form c pre d x hwfc hx
            have hres := descends_childPath_ne pre c₂.name c.name t u hvm2 hvmc hnec
              htkind hukind
            rw [hu, hpt']
            exact hres
          · exact hA x hx

/-- Claim C6: the scan produces a depth-first pre-order listing with each
directory listing visited in sorted name order, so every directory's strict
descendants (in the `path` extends `path ++ sep` sense) occupy exactly the
contiguous run of positions immediately after the directory, every entry of
the run is strictly deeper than the directory, no entry outside the run is
a descendant, and the direct children (depth exactly one more) inside the
run appear in strictly increasing lexicographic path order. -/
theorem build_file_tree_preorder_contiguity (fs : List FS) (hwf : wfForest fs = true)
    (i : Nat) (e : Entry)
    (hget : (build_file_tree fs)[i]? = some e) (hdir : e.isDir = true) :
    ∃ m : Nat,
      (∀ k x, (build_file_tree fs)[k]? = some x →
          (descends e.path x.path = true ↔ i < k ∧ k ≤ i + m)) ∧
        (∀ k x, (build_file_tree fs)[k]? = some x → i < k → k ≤ i + m →
          e.depth < x.depth) ∧
        (∀ k₁ k₂ x₁ x₂, (build_file_tree fs)[k₁]? = some x₁ →
          (build_file_tree fs)[k₂]? = some x₂ →
          i < k₁ → k₁ < k₂ → k₂ ≤ i + m →
          x₁.depth = e.depth + 1 → x₂.depth = e.depth + 1 →
          lexLt x₁.path x₂.path = true) := by
  obtain ⟨hwl, hnd, hpw, hsl⟩ := sortForest_good fs hwf
  have hszb : ∀ c ∈ sortForest fs, sizeOf c < sizeOf (sortForest fs) + 1 := by
    intro c hc
    have := List.sizeOf_lt_of_mem hc
    omega
  simp only [build_file_tree] at hget ⊢
  have he : e = ⟨e.path, e.depth, true⟩ := by
    rw [← hdir]
  have hget' : (entriesList [] 0 (sortForest fs))[i]? = some ⟨e.path, e.depth, true⟩ := by
    rw [← he]
    exact hget
  obtain ⟨A, B, C, hsplit, hlenA, hB, hA, hC, hpwB⟩ :=
    entriesList_split (sizeOf (sortForest fs) + 1) (sortForest fs) hszb hwl hnd hpw hsl
      [] 0 i e.path e.depth hget'
  have hclass : ∀ k x, (entriesList [] 0 (sortForest fs))[k]? = some x →
      (k < i ∧ x ∈ A) ∨ (k = i ∧ x = ⟨e.path, e.depth, true⟩) ∨
        (i < k ∧ k ≤ i + B.length ∧ B[k - i - 1]? = some x) ∨
        (i + B.length < k ∧ x ∈ C) := by
    intro k x hk
    rw [hsplit] at hk
    rcases Nat.lt_trichotomy k i with hlt | hkeq | hgt
    · left
      rw [List.getElem?_append, if_pos (by omega : k < A.length)] at hk
      obtain ⟨h1, h2⟩ := List.getElem?_eq_some.mp hk
      exact ⟨hlt, h2 ▸ List.getElem_mem h1⟩
    · right
      left
      subst hkeq
      rw [List.getElem?_append_right (by omega : A.length ≤ k)] at hk
      rw [show k - A.length = 0 from by omega] at hk
      rw [List.getElem?_cons_zero, Option.some.injEq] at hk
      exact ⟨rfl, hk.symm⟩
    · right
      right
      rw [List.getElem?_append_right (by omega : A.length ≤ k)] at hk
      rw [show k - A.length = (k - A.length - 1) + 1 from by omega,
        List.getElem?_cons_succ] at hk
      by_cases hkb : k - A.length - 1 < B.length
      · left
        rw [List.getElem?_append, if_pos hkb] at hk
        refine ⟨hgt, by omega, ?_⟩
        rw [show k - i - 1 = k - A.length - 1 from by omega]
        exact hk
      · right
        rw [List.getElem?_append_right (by omega)] at hk
        obtain ⟨h1, h2⟩ := List.getElem?_eq_some.mp hk
        exact ⟨by omega, h2 ▸ List.getElem_mem h1⟩
  refine ⟨B.length, ?_, ?_, ?_⟩
  · intro k x hk
    rcases hclass k x hk with ⟨hpos, hmem⟩ | ⟨hpos, hx⟩ | ⟨hpos1, hpos2, hgetB⟩ |
      ⟨hpos, hmem⟩
    · rw [hA x hmem]
      constructor
      · intro hfalse
        exact absurd hfalse (by simp)
      · intro hrange
        omega
    · subst hx
      constructor
      · intro hfalse
        rw [show Entry.path ⟨e.path, e.depth, true⟩ = e.path from rfl,
          descends_self_false] at hfalse
        exact absurd hfalse (by simp)
      · intro hrange
        omega
    · obtain ⟨h1, h2⟩ := List.getElem?_eq_some.mp hgetB
      have hmem : x ∈ B := h2 ▸ List.getElem_mem h1
      exact ⟨fun _ => ⟨hpos1, hpos2⟩, fun _ => (hB x hmem).1⟩
    · rw [hC x hmem]
      constructor
      · intro hfalse
        exact absurd hfalse (by simp)
      · intro hrange
        omega
  · intro k x hk hk1 hk2
    rcases hclass k x hk with ⟨hpos, _⟩ | ⟨hpos, _⟩ | ⟨hpos1, hpos2, hgetB⟩ |
      ⟨hpos, _⟩
    · omega
    · omega
    · obtain ⟨h1, h2⟩ := List.getElem?_eq_some.mp hgetB
      exact (hB x (h2 ▸ List.getElem_mem h1)).2
    · omega
  · intro k₁ k₂ x₁ x₂ hk1 hk2 hik1 hk12 hk2m hd1 hd2
    rcases hclass k₁ x₁ hk1 with ⟨hpos, _⟩ | ⟨hpos, _⟩ | ⟨hq1, hq2, hgetB1⟩ |
      ⟨hpos, _⟩
    · omega
    · omega
    · rcases hclass k₂ x₂ hk2 with ⟨hpos, _⟩ | ⟨hpos, _⟩ | ⟨hr1, hr2, hgetB2⟩ |
        ⟨hpos, _⟩
      · omega
      · omega
      · obtain ⟨hb1, he1⟩ := List.getElem?_eq_some.mp hgetB1
        obtain ⟨hb2, he2⟩ := List.getElem?_eq_some.mp hgetB2
        have hidx : k₁ - i - 1 < k₂ - i - 1 := by omega
        have hpair := List.pairwise_iff_getElem.mp hpwB (k₁ - i - 1) (k₂ - i - 1)
          hb1 hb2 hidx
        rw [he1, he2] at hpair
        exact hpair hd1 hd2
      · omega
    · omega

/-- A small well-formed filesystem used to witness the contiguity theorem:
`d` contains `a` and `b`, and `b` contains `x`; `z` is a sibling of `d`. -/
def exFS : List FS :=
  [FS.dir (chars "d")
    [FS.file (chars "a"), FS.dir (chars "b") [FS.file (chars "x")]],
   FS.file (chars "z")]

/-- Witness for claim C6 at the directory `d` (index 0) of `exFS`. -/
theorem build_file_tree_preorder_contiguity_witness :
    (wfForest exFS = true ∧
        (build_file_tree exFS)[0]? = some ⟨chars "d", 0, true⟩ ∧
        (⟨chars "d", 0, true⟩ : Entry).isDir = true) ∧
      (∃ m : Nat,
        (∀ k x, (build_file_tree exFS)[k]? = some x →
            (descends (chars "d") x.path = true ↔ 0 < k ∧ k ≤ 0 + m)) ∧
          (∀ k x, (build_file_tree exFS)[k]? = some x → 0 < k → k ≤ 0 + m →
            0 < x.depth) ∧
          (∀ k₁ k₂ x₁ x₂, (build_file_tree exFS)[k₁]? = some x₁ →
            (build_file_tree exFS)[k₂]? = some x₂ →
            0 < k₁ → k₁ < k₂ → k₂ ≤ 0 + m →
            x₁.depth = 0 + 1 → x₂.depth = 0 + 1 →
            lexLt x₁.path x₂.path = true)) :=
  ⟨⟨by decide, by decide, rfl⟩,
    build_file_tree_preorder_contiguity exFS (by decide) 0 ⟨chars "d", 0, true⟩
      (by decide) rfl⟩

end FileSelector
